import Mathlib

/-!
A shallow embedding of the engagement-scoring pipeline of the `matsuni`
repository, together with proofs and refutations of the specification's
claims about it.

The embedded code comes from:
* `src/bot/services/image_ocr.py` — identity matching
  (`ImageProcessor._calculate_similarity`, `ImageProcessor.find_usernames`);
* `src/bot/services/matsuni_calc.py` — scoring
  (`MatsuniCalculator.calculate_for_post`, `MatsuniCalculator._check_daily_limit`);
* `src/bot/database/gsheets.py` — exclusion lookup, ledger commit and period
  aggregation (`GoogleSheetsDB.get_exclusions`, `GoogleSheetsDB.save_activity`,
  `GoogleSheetsDB.calculate_totals`).

Python dictionaries that act as records become structures; spreadsheet rows
become lists of such structures; Python `float` scores become `ℚ`
(the arithmetic performed — sums, divisions by small integers, comparisons —
is exact in the source's value range, so rationals are a faithful model);
Python `int` becomes `ℤ`.
-/

namespace Matsuni

/-! ## Identity matcher: `ImageProcessor._calculate_similarity`
(`src/bot/services/image_ocr.py`, lines 137–173). -/

/-- Helper for `lev`: given `f = lev xs ·`, computes `lev (x :: xs) ·` by
structural recursion, so that the kernel can evaluate the distance. -/
def levAux (x : Char) (f : List Char → Nat) : List Char → Nat
  | [] => f [] + 1
  | y :: ys =>
      min (min (f (y :: ys) + 1) (levAux x f ys + 1))
        (f ys + if x = y then 0 else 1)

/-- The full dynamic-programming Levenshtein edit distance computed by the
matrix loop of `_calculate_similarity` (lines 151–167): classic
insertion/deletion/substitution, each of cost 1.  The matrix of the source is
row-by-row memoisation of this standard recurrence (`matrix[i][0] = i`,
`matrix[0][j] = j`, `matrix[i][j] = min(deletion, insertion, substitution)`);
see `lev_nil_left`, `lev_nil_right` and `lev_cons_cons` for the recurrence. -/
def lev : List Char → List Char → Nat
  | [], ys => ys.length
  | x :: xs, ys => levAux x (lev xs) ys

theorem lev_nil_left (ys : List Char) : lev [] ys = ys.length := rfl

theorem lev_nil_right : ∀ xs : List Char, lev xs [] = xs.length
  | [] => rfl
  | x :: xs => by
      show lev xs [] + 1 = xs.length + 1
      rw [lev_nil_right xs]

theorem lev_cons_cons (x y : Char) (xs ys : List Char) :
    lev (x :: xs) (y :: ys)
      = min (min (lev xs (y :: ys) + 1) (lev (x :: xs) ys + 1))
          (lev xs ys + if x = y then 0 else 1) := rfl

/-- The edit distance is symmetric. -/
theorem lev_comm (xs ys : List Char) : lev xs ys = lev ys xs := by
  induction xs generalizing ys with
  | nil => rw [lev_nil_left, lev_nil_right]
  | cons x xs ih =>
    induction ys with
    | nil => rw [lev_nil_left, lev_nil_right]
    | cons y ys ih2 =>
      rw [lev_cons_cons, lev_cons_cons, ih (y :: ys), ih2, ih ys]
      have hc : (if x = y then 0 else 1) = (if y = x then 0 else 1) := by
        by_cases h : x = y
        · simp [h]
        · simp [h, mt Eq.symm h]
      rw [hc, Nat.min_comm (lev (y :: ys) xs + 1) (lev ys (x :: xs) + 1)]

/-- The edit distance never exceeds the longer length. -/
theorem lev_le_max (xs ys : List Char) : lev xs ys ≤ max xs.length ys.length := by
  induction xs generalizing ys with
  | nil => rw [lev_nil_left]; exact le_max_right _ _
  | cons x xs ih =>
    cases ys with
    | nil => rw [lev_nil_right]; exact le_max_left _ _
    | cons y ys =>
      rw [lev_cons_cons]
      refine le_trans (min_le_right _ _) ?_
      have h1 : (if x = y then 0 else 1) ≤ 1 := by split <;> omega
      have h2 := ih ys
      simp only [List.length_cons]
      omega

/-- `ImageProcessor._calculate_similarity(str1, str2)`
(`src/bot/services/image_ocr.py`, lines 137–173): `1.0` on exact equality,
else `0.9` when the shorter string is a contiguous substring of the longer
(`shorter in longer`), else `1 - levenshtein / max(len(str1), len(str2))`
(with the unreachable `max_len == 0` guard returning `1.0`). -/
def calculate_similarity (str1 str2 : String) : ℚ :=
  if str1 = str2 then 1
  else
    let longer := if str2.length < str1.length then str1 else str2
    let shorter := if str1.length ≤ str2.length then str1 else str2
    if shorter.data <:+: longer.data then 9/10
    else
      let distance := lev str1.data str2.data
      let maxLen := max str1.length str2.length
      if maxLen = 0 then 1 else 1 - (distance : ℚ) / (maxLen : ℚ)

theorem string_eq_of_data_eq {s t : String} (h : s.data = t.data) : s = t :=
  congrArg String.mk h

/-- C9: the three-tier similarity of `_calculate_similarity` is symmetric. -/
theorem similarity_symm (a b : String) :
    calculate_similarity a b = calculate_similarity b a := by
  unfold calculate_similarity
  by_cases hab : a = b
  · simp [hab]
  · have hba : ¬ b = a := fun h => hab h.symm
    simp only [hab, hba, if_false]
    have hlen : a.length = a.data.length := rfl
    have hlenb : b.length = b.data.length := rfl
    rcases lt_trichotomy a.length b.length with h | h | h
    · -- |a| < |b| : both directions test `a` as infix of `b`
      have h1 : ¬ b.length < a.length := by omega
      have h2 : a.length ≤ b.length := le_of_lt h
      have h3 : ¬ b.length ≤ a.length := by omega
      simp only [h1, h2, h3, h, if_true, if_false]
      rw [lev_comm, max_comm]
    · -- equal lengths: both infix tests are false since a ≠ b
      have h1 : ¬ b.length < a.length := by omega
      have h2 : a.length ≤ b.length := le_of_eq h
      have h3 : b.length ≤ a.length := le_of_eq h.symm
      have h4 : ¬ a.length < b.length := by omega
      simp only [h1, h2, h3, h4, if_true, if_false]
      have hinf1 : ¬ (a.data <:+: b.data) := by
        intro hinf
        exact hab (string_eq_of_data_eq (hinf.sublist.eq_of_length (by omega)))
      have hinf2 : ¬ (b.data <:+: a.data) := by
        intro hinf
        exact hba (string_eq_of_data_eq (hinf.sublist.eq_of_length (by omega)))
      simp only [hinf1, hinf2, if_false]
      rw [lev_comm, max_comm]
    · -- |a| > |b| : both directions test `b` as infix of `a`
      have h1 : b.length < a.length := h
      have h2 : ¬ a.length ≤ b.length := by omega
      have h3 : b.length ≤ a.length := le_of_lt h
      have h4 : ¬ a.length < b.length := by omega
      simp only [h1, h2, h3, h4, if_true, if_false]
      rw [lev_comm, max_comm]

/-- C10: the empty string sits at exactly `0.9` similarity with every
non-empty string — the empty list is an infix of every list, so the
substring tier fires — and at `1.0` with itself; `0.9` clears the default
`0.8` confidence threshold of `find_usernames`. -/
theorem similarity_empty_string :
    (∀ m : String, m ≠ "" → calculate_similarity "" m = 9/10) ∧
      calculate_similarity "" "" = 1 ∧ (8/10 : ℚ) ≤ 9/10 := by
  refine ⟨fun m hm => ?_, by rw [calculate_similarity, if_pos rfl], by norm_num⟩
  unfold calculate_similarity
  have h1 : ¬ ("" : String) = m := fun h => hm h.symm
  have h0 : ("" : String).length = 0 := rfl
  have h2 : ¬ m.length < ("" : String).length := by rw [h0]; omega
  have h3 : ("" : String).length ≤ m.length := by rw [h0]; omega
  simp only [h1, h2, h3, if_true, if_false]
  rw [if_pos (show ("" : String).data <:+: m.data from List.nil_infix)]

/-- Witness for `similarity_empty_string` at the concrete member `"abc"`. -/
theorem similarity_empty_string_witness :
    calculate_similarity "" "abc" = 9/10 :=
  similarity_empty_string.1 "abc" (by decide)

/-- The similarity score is never negative. -/
theorem similarity_nonneg (a b : String) : 0 ≤ calculate_similarity a b := by
  simp only [calculate_similarity]
  by_cases h1 : a = b
  · rw [if_pos h1]; norm_num
  rw [if_neg h1]
  by_cases h2 : ((if a.length ≤ b.length then a else b).data <:+:
      (if b.length < a.length then a else b).data)
  · rw [if_pos h2]; norm_num
  rw [if_neg h2]
  by_cases h3 : max a.length b.length = 0
  · rw [if_pos h3]; norm_num
  rw [if_neg h3]
  have hpos : 0 < max a.length b.length := Nat.pos_of_ne_zero h3
  have hd : lev a.data b.data ≤ max a.length b.length := lev_le_max a.data b.data
  have : (lev a.data b.data : ℚ) / (max a.length b.length : ℚ) ≤ 1 := by
    rw [div_le_one (by exact_mod_cast hpos)]
    exact_mod_cast hd
  push_cast at this ⊢
  linarith

/-- The similarity score never exceeds one. -/
theorem similarity_le_one (a b : String) : calculate_similarity a b ≤ 1 := by
  simp only [calculate_similarity]
  by_cases h1 : a = b
  · rw [if_pos h1]
  rw [if_neg h1]
  by_cases h2 : ((if a.length ≤ b.length then a else b).data <:+:
      (if b.length < a.length then a else b).data)
  · rw [if_pos h2]; norm_num
  rw [if_neg h2]
  by_cases h3 : max a.length b.length = 0
  · rw [if_pos h3]
  rw [if_neg h3]
  have hpos : (0 : ℚ) < (max a.length b.length : ℚ) := by
    exact_mod_cast Nat.pos_of_ne_zero h3
  have : (0 : ℚ) ≤ (lev a.data b.data : ℚ) / (max a.length b.length : ℚ) :=
    div_nonneg (by positivity) (le_of_lt hpos)
  push_cast at this ⊢
  linarith

/-! ## Identity matcher: `ImageProcessor.find_usernames`
(`src/bot/services/image_ocr.py`, lines 101–135).

The regex token-extraction step (lines 107–120, `re.findall` over the four
shape patterns) is abstracted as the input list `toks`: every theorem
below quantifies over an arbitrary token list, hence covers the tokens
extracted from any text. -/

/-- Python's `str.lower()`, character by character.  (`Char.toLower` only
affects ASCII letters; all claim-relevant comparisons are over the
`[a-zA-Z0-9_.]` token alphabet or against already-lower-case literals.) -/
def strLower (s : String) : String := ⟨s.data.map Char.toLower⟩

/-- The inner double loop of `find_usernames` (lines 118–126): for each
extracted token and each roster member, keep `(member, confidence)` whenever
`confidence >= min_confidence`, where
`confidence = _calculate_similarity(username.lower(), member.lower())`. -/
def scored_pairs (toks members : List String) (minc : ℚ) : List (String × ℚ) :=
  toks.bind fun m =>
    members.filterMap fun mem =>
      let c := calculate_similarity (strLower m) (strLower mem)
      if minc ≤ c then some (mem, c) else none

/-- One step of the deduplication loop (lines 129–132): a Python dict update
`if username not in unique_found or confidence > unique_found[username]`.
A missing key is appended at the end; a larger confidence replaces the value
in place, keeping the key's position. -/
def dict_update_max : List (String × ℚ) → String × ℚ → List (String × ℚ)
  | [], p => [p]
  | q :: acc, p =>
      if q.1 = p.1 then
        if q.2 < p.2 then (q.1, p.2) :: acc else q :: acc
      else q :: dict_update_max acc p

/-- The deduplication loop of `find_usernames` (lines 128–132), building the
insertion-ordered dict `unique_found`. -/
def unique_found (found : List (String × ℚ)) : List (String × ℚ) :=
  found.foldl dict_update_max []

/-- The sort key of line 135: `sorted(..., key=lambda x: x[1], reverse=True)`,
descending by confidence. -/
def byConfDesc (p q : String × ℚ) : Prop := q.2 ≤ p.2

instance : DecidableRel byConfDesc := fun p q => inferInstanceAs (Decidable (q.2 ≤ p.2))

instance : IsTotal (String × ℚ) byConfDesc := ⟨fun p q => le_total q.2 p.2⟩

instance : IsTrans (String × ℚ) byConfDesc := ⟨fun _ _ _ h1 h2 => le_trans h2 h1⟩

/-- `ImageProcessor.find_usernames` (lines 101–135) downstream of token
extraction: score every (token, member) pair, keep those above the threshold,
deduplicate by member keeping the maximal confidence, and stably sort by
confidence descending (Python's `sorted` with `reverse=True` is stable). -/
def find_usernames (toks members : List String) (minc : ℚ) : List (String × ℚ) :=
  List.insertionSort byConfDesc (unique_found (scored_pairs toks members minc))

theorem mem_scored_pairs {toks members : List String} {minc : ℚ}
    {p : String × ℚ} :
    p ∈ scored_pairs toks members minc ↔
      ∃ m ∈ toks, p.1 ∈ members ∧
        p.2 = calculate_similarity (strLower m) (strLower p.1) ∧ minc ≤ p.2 := by
  unfold scored_pairs
  rw [List.mem_bind]
  constructor
  · rintro ⟨m, hm, hmem⟩
    rw [List.mem_filterMap] at hmem
    obtain ⟨mem, hmem2, heq⟩ := hmem
    by_cases hc : minc ≤ calculate_similarity (strLower m) (strLower mem)
    · rw [if_pos hc] at heq
      have heq2 : (mem, calculate_similarity (strLower m) (strLower mem)) = p :=
        Option.some.inj heq
      refine ⟨m, hm, ?_, ?_, ?_⟩
      · rw [← heq2]; exact hmem2
      · rw [← heq2]
      · rw [← heq2]; exact hc
    · rw [if_neg hc] at heq; cases heq
  · rintro ⟨m, hm, hmem, hval, hc⟩
    refine ⟨m, hm, ?_⟩
    rw [List.mem_filterMap]
    refine ⟨p.1, hmem, ?_⟩
    rw [← hval, if_pos hc]

theorem mem_dict_update_max {acc : List (String × ℚ)} {p r : String × ℚ}
    (h : r ∈ dict_update_max acc p) : r ∈ acc ∨ r = p := by
  induction acc with
  | nil => simp only [dict_update_max, List.mem_singleton] at h; exact Or.inr h
  | cons q acc ih =>
    unfold dict_update_max at h
    by_cases hk : q.1 = p.1
    · rw [if_pos hk] at h
      by_cases hv : q.2 < p.2
      · rw [if_pos hv] at h
        rcases List.mem_cons.mp h with h | h
        · right; rw [h, hk]
        · exact Or.inl (List.mem_cons_of_mem _ h)
      · rw [if_neg hv] at h
        exact Or.inl h
    · rw [if_neg hk] at h
      rcases List.mem_cons.mp h with h | h
      · exact Or.inl (h ▸ List.mem_cons_self _ _)
      · rcases ih h with h | h
        · exact Or.inl (List.mem_cons_of_mem _ h)
        · exact Or.inr h

theorem keys_dict_update_max {acc : List (String × ℚ)} {p : String × ℚ} {k : String} :
    k ∈ (dict_update_max acc p).map Prod.fst ↔
      k ∈ acc.map Prod.fst ∨ k = p.1 := by
  induction acc with
  | nil => simp [dict_update_max]
  | cons q acc ih =>
    unfold dict_update_max
    by_cases hk : q.1 = p.1
    · rw [if_pos hk]
      by_cases hv : q.2 < p.2
      · rw [if_pos hv]
        simp only [List.map_cons, List.mem_cons]
        constructor
        · rintro (h | h)
          · exact Or.inl (Or.inl h)
          · exact Or.inl (Or.inr h)
        · rintro ((h | h) | h)
          · exact Or.inl h
          · exact Or.inr h
          · exact Or.inl (hk ▸ h)
      · rw [if_neg hv]
        simp only [List.map_cons, List.mem_cons]
        constructor
        · rintro (h | h)
          · exact Or.inl (Or.inl h)
          · exact Or.inl (Or.inr h)
        · rintro ((h | h) | h)
          · exact Or.inl h
          · exact Or.inr h
          · exact Or.inl (hk ▸ h)
    · rw [if_neg hk]
      simp only [List.map_cons, List.mem_cons, ih]
      tauto

theorem nodup_keys_dict_update_max {acc : List (String × ℚ)} {p : String × ℚ}
    (h : (acc.map Prod.fst).Nodup) :
    ((dict_update_max acc p).map Prod.fst).Nodup := by
  induction acc with
  | nil => simp [dict_update_max]
  | cons q acc ih =>
    simp only [List.map_cons, List.nodup_cons] at h
    unfold dict_update_max
    by_cases hk : q.1 = p.1
    · rw [if_pos hk]
      by_cases hv : q.2 < p.2
      · rw [if_pos hv]
        simpa using h
      · rw [if_neg hv]
        simpa using h
    · rw [if_neg hk]
      simp only [List.map_cons, List.nodup_cons]
      refine ⟨?_, ih h.2⟩
      rw [keys_dict_update_max]
      rintro (hmem | hmem)
      · exact h.1 hmem
      · exact hk hmem

theorem dict_update_max_mono {acc : List (String × ℚ)} (p : String × ℚ)
    {r : String × ℚ} (h : r ∈ acc) :
    ∃ r' ∈ dict_update_max acc p, r'.1 = r.1 ∧ r.2 ≤ r'.2 := by
  induction acc with
  | nil => cases h
  | cons q acc ih =>
    unfold dict_update_max
    by_cases hk : q.1 = p.1
    · rw [if_pos hk]
      by_cases hv : q.2 < p.2
      · rw [if_pos hv]
        rcases List.mem_cons.mp h with h | h
        · exact ⟨(q.1, p.2), List.mem_cons_self _ _, by rw [h], by rw [h]; exact le_of_lt hv⟩
        · exact ⟨r, List.mem_cons_of_mem _ h, rfl, le_refl _⟩
      · rw [if_neg hv]
        exact ⟨r, h, rfl, le_refl _⟩
    · rw [if_neg hk]
      rcases List.mem_cons.mp h with h | h
      · exact ⟨r, h ▸ List.mem_cons_self _ _, rfl, le_refl _⟩
      · obtain ⟨r', hr', hk', hv'⟩ := ih h
        exact ⟨r', List.mem_cons_of_mem _ hr', hk', hv'⟩

theorem dict_update_max_new (acc : List (String × ℚ)) (p : String × ℚ) :
    ∃ r ∈ dict_update_max acc p, r.1 = p.1 ∧ p.2 ≤ r.2 := by
  induction acc with
  | nil => exact ⟨p, by simp [dict_update_max], rfl, le_refl _⟩
  | cons q acc ih =>
    unfold dict_update_max
    by_cases hk : q.1 = p.1
    · rw [if_pos hk]
      by_cases hv : q.2 < p.2
      · rw [if_pos hv]
        exact ⟨(q.1, p.2), List.mem_cons_self _ _, hk, le_refl _⟩
      · rw [if_neg hv]
        exact ⟨q, List.mem_cons_self _ _, hk, le_of_not_lt hv⟩
    · rw [if_neg hk]
      obtain ⟨r, hr, hk', hv'⟩ := ih
      exact ⟨r, List.mem_cons_of_mem _ hr, hk', hv'⟩

theorem foldl_dict_source {found : List (String × ℚ)} :
    ∀ {acc : List (String × ℚ)} {r : String × ℚ},
      r ∈ found.foldl dict_update_max acc → r ∈ acc ∨ r ∈ found := by
  induction found with
  | nil => intro acc r h; exact Or.inl h
  | cons p found ih =>
    intro acc r h
    rw [List.foldl_cons] at h
    rcases ih h with h | h
    · rcases mem_dict_update_max h with h | h
      · exact Or.inl h
      · exact Or.inr (h ▸ List.mem_cons_self _ _)
    · exact Or.inr (List.mem_cons_of_mem _ h)

theorem foldl_dict_nodup {found : List (String × ℚ)} :
    ∀ {acc : List (String × ℚ)}, (acc.map Prod.fst).Nodup →
      ((found.foldl dict_update_max acc).map Prod.fst).Nodup := by
  induction found with
  | nil => intro acc h; exact h
  | cons p found ih =>
    intro acc h
    rw [List.foldl_cons]
    exact ih (nodup_keys_dict_update_max h)

theorem foldl_dict_mono {found : List (String × ℚ)} :
    ∀ {acc : List (String × ℚ)} {r : String × ℚ}, r ∈ acc →
      ∃ r' ∈ found.foldl dict_update_max acc, r'.1 = r.1 ∧ r.2 ≤ r'.2 := by
  induction found with
  | nil => intro acc r h; exact ⟨r, h, rfl, le_refl _⟩
  | cons p found ih =>
    intro acc r h
    rw [List.foldl_cons]
    obtain ⟨r', hr', hk', hv'⟩ := dict_update_max_mono p h
    obtain ⟨r'', hr'', hk'', hv''⟩ := ih hr'
    exact ⟨r'', hr'', hk''.trans hk', le_trans hv' hv''⟩

theorem foldl_dict_dominates {found : List (String × ℚ)} :
    ∀ (acc : List (String × ℚ)) {q : String × ℚ}, q ∈ found →
      ∃ r ∈ found.foldl dict_update_max acc, r.1 = q.1 ∧ q.2 ≤ r.2 := by
  induction found with
  | nil => intro _ _ h; cases h
  | cons p found ih =>
    intro acc q h
    rw [List.foldl_cons]
    rcases List.mem_cons.mp h with h | h
    · obtain ⟨r, hr, hk, hv⟩ := dict_update_max_new acc p
      obtain ⟨r', hr', hk', hv'⟩ := foldl_dict_mono hr
      exact ⟨r', hr', by rw [hk', hk, h], le_trans (h ▸ hv) hv'⟩
    · exact ih _ h

theorem eq_of_mem_nodup_keys {l : List (String × ℚ)} {p q : String × ℚ}
    (h : (l.map Prod.fst).Nodup) (hp : p ∈ l) (hq : q ∈ l) (hk : p.1 = q.1) :
    p = q := by
  induction l with
  | nil => cases hp
  | cons r l ih =>
    simp only [List.map_cons, List.nodup_cons] at h
    rcases List.mem_cons.mp hp with hp' | hp' <;>
      rcases List.mem_cons.mp hq with hq' | hq'
    · rw [hp', hq']
    · exfalso
      apply h.1
      have hq1 : q.1 ∈ l.map Prod.fst := List.mem_map_of_mem Prod.fst hq'
      rw [hp'] at hk
      rw [hk]
      exact hq1
    · exfalso
      apply h.1
      have hp1 : p.1 ∈ l.map Prod.fst := List.mem_map_of_mem Prod.fst hp'
      rw [hq'] at hk
      rw [← hk]
      exact hp1
    · exact ih h.2 hp' hq'

/-- C7: every pair returned by `find_usernames` clears the threshold and lies
in `[0, 1]`; roster members appear at most once; each returned member carries
the maximum similarity observed for it over all extracted tokens (attained,
and an upper bound over every token); and the list is sorted by confidence
descending. -/
theorem find_usernames_spec (toks members : List String) (minc : ℚ) :
    (∀ p ∈ find_usernames toks members minc,
        minc ≤ p.2 ∧ 0 ≤ p.2 ∧ p.2 ≤ 1) ∧
      ((find_usernames toks members minc).map Prod.fst).Nodup ∧
      (∀ p ∈ find_usernames toks members minc,
        (∃ m ∈ toks, calculate_similarity (strLower m) (strLower p.1) = p.2) ∧
          ∀ m ∈ toks, calculate_similarity (strLower m) (strLower p.1) ≤ p.2) ∧
      (find_usernames toks members minc).Pairwise byConfDesc := by
  have hperm : List.Perm (find_usernames toks members minc)
      (unique_found (scored_pairs toks members minc)) :=
    List.perm_insertionSort byConfDesc _
  have hmem_unique : ∀ {p : String × ℚ},
      p ∈ find_usernames toks members minc →
        p ∈ unique_found (scored_pairs toks members minc) :=
    fun hp => hperm.mem_iff.mp hp
  have hmem_found : ∀ {p : String × ℚ},
      p ∈ find_usernames toks members minc →
        p ∈ scored_pairs toks members minc := by
    intro p hp
    rcases foldl_dict_source (hmem_unique hp) with h | h
    · cases h
    · exact h
  refine ⟨?_, ?_, ?_, List.sorted_insertionSort byConfDesc _⟩
  · intro p hp
    obtain ⟨m, _, _, hval, hc⟩ := mem_scored_pairs.mp (hmem_found hp)
    exact ⟨hc, hval ▸ similarity_nonneg _ _, hval ▸ similarity_le_one _ _⟩
  · have : ((unique_found (scored_pairs toks members minc)).map Prod.fst).Nodup :=
      foldl_dict_nodup (by simp)
    exact ((hperm.map Prod.fst).nodup_iff).mpr this
  · intro p hp
    obtain ⟨m, hm, hmm, hval, hc⟩ := mem_scored_pairs.mp (hmem_found hp)
    refine ⟨⟨m, hm, hval.symm⟩, ?_⟩
    intro m' hm'
    by_cases hc' : minc ≤ calculate_similarity (strLower m') (strLower p.1)
    · have hfound : (p.1, calculate_similarity (strLower m') (strLower p.1)) ∈
          scored_pairs toks members minc :=
        mem_scored_pairs.mpr ⟨m', hm', hmm, rfl, hc'⟩
      obtain ⟨r, hr, hk, hv⟩ := foldl_dict_dominates [] hfound
      have hrp : r = p :=
        eq_of_mem_nodup_keys (foldl_dict_nodup (by simp)) hr (hmem_unique hp) hk
      exact le_trans hv (by rw [hrp])
    · exact le_trans (le_of_not_le hc') hc

/-! ## Scoring engine: `MatsuniCalculator` (`src/bot/services/matsuni_calc.py`)
and its collaborators in `src/bot/database/gsheets.py`.

Worksheet rows become structures whose fields are the worksheet columns
(`_init_worksheet_structure`, gsheets.py lines 65–83).  `.lower()` is
modelled by `strLower`; every comparison the claims exercise is
against already-lower-case literals. -/

/-- A row of the `Исключения` worksheet:
`['Username', 'Название поста', 'Причина', 'Дата', 'Активно']`. -/
structure ExclusionRow where
  username : String
  postName : String
  reason : String
  date : String
  active : String
deriving DecidableEq

/-- `GoogleSheetsDB.get_exclusions(post_name)` (gsheets.py lines 135–155):
keep rows whose `Активно` is `"да"` (case-insensitively) and — when
`post_name` is truthy, i.e. non-empty — whose `Название поста` equals
`post_name` exactly.  Note there is no special case for the `"all"`
wildcard. -/
def get_exclusions (sheet : List ExclusionRow) (post_name : String) :
    List ExclusionRow :=
  sheet.filter fun row =>
    (strLower row.active) == "да" && (post_name == "" || row.postName == post_name)

/-- A row of the `Активность` worksheet:
`['ID поста', 'Username', 'Лайк', 'Комментарий', 'Матсуни', 'Время проверки']`. -/
structure ActivityRow where
  postId : String
  username : String
  likeMark : String
  commentMark : String
  matsuni : Int
  checkTime : String
deriving DecidableEq

/-- `row['Время проверки'].split()[0]` — the date part of a check timestamp
`"YYYY-MM-DD HH:MM:SS"`: the characters before the first space (the
timestamps written by `save_activity` have no leading whitespace, so
`split()[0]` is exactly this prefix). -/
def dateOf (s : String) : String := ⟨s.data.takeWhile (· ≠ ' ')⟩

/-- The rules dictionary of `MatsuniCalculator.__init__`
(matsuni_calc.py lines 13–18). -/
structure Rules where
  max_per_day : Int
  like_only : Int
  comment_only : Int
  like_comment : Int
deriving DecidableEq

/-- The default rules: `{'max_per_day': 2, 'like_only': 1,
'comment_only': 2, 'like_comment': 2}`. -/
def defaultRules : Rules := ⟨2, 1, 2, 2⟩

/-- An activity record passed to `calculate_for_post`; `username` is optional
because the source reads it with `activity.get('username', '')`. -/
structure Activity where
  username : Option String
  has_like : Bool
  has_comment : Bool
deriving DecidableEq

/-- The post data used by `calculate_for_post` and `save_activity`. -/
structure Post where
  id : String
  name : String
  date : String
deriving DecidableEq

/-- One element of the `results` list built by `calculate_for_post`
(matsuni_calc.py lines 56–63). -/
structure ResultRow where
  username : String
  has_like : Bool
  has_comment : Bool
  matsuni : Int
  post_name : String
  post_date : String
deriving DecidableEq

/-- The `daily_total` accumulation of `MatsuniCalculator._check_daily_limit`
(lines 73–78): the sum of `Матсуни` over Activity-sheet rows with this
username whose check-timestamp date equals `date`. -/
def daily_total (sheet : List ActivityRow) (username date : String) : Int :=
  ((sheet.filter fun r =>
    r.username == username && dateOf r.checkTime == date).map (·.matsuni)).sum

/-- `MatsuniCalculator._check_daily_limit` (lines 67–81):
`min(new_matsuni, max(0, max_per_day - daily_total))`. -/
def check_daily_limit (rules : Rules) (sheet : List ActivityRow)
    (username date : String) (new_matsuni : Int) : Int :=
  let remaining := rules.max_per_day - daily_total sheet username date
  min new_matsuni (max 0 remaining)

/-- The per-record body of the `calculate_for_post` loop (lines 38–63) for a
non-excluded record: raw points from the rule table (a comment always scores
`like_comment`, else a like scores `like_only`, else `0`), clamped by
`_check_daily_limit` (`if daily_limit < matsuni: matsuni = daily_limit`). -/
def score_activity (rules : Rules) (sheet : List ActivityRow) (post : Post)
    (a : Activity) : ResultRow :=
  let username := a.username.getD ""
  let matsuni : Int :=
    if a.has_comment then rules.like_comment
    else if a.has_like then rules.like_only
    else 0
  let daily_limit := check_daily_limit rules sheet username post.date matsuni
  { username := username
    has_like := a.has_like
    has_comment := a.has_comment
    matsuni := if daily_limit < matsuni then daily_limit else matsuni
    post_name := post.name
    post_date := post.date }

/-- `excluded_users = {ex['username'] for ex in exclusions}`
(matsuni_calc.py line 27); a Python set used only for membership tests,
modelled as the list of usernames. -/
def excluded_users (exclSheet : List ExclusionRow) (post_name : String) :
    List String :=
  (get_exclusions exclSheet post_name).map (·.username)

/-- The `for activity in activities` loop of `calculate_for_post`
(lines 30–63) with its `results` accumulator: an excluded username is
skipped (`continue`), every other record appends one scored row. -/
def calc_loop (rules : Rules) (exclSheet : List ExclusionRow)
    (sheet : List ActivityRow) (post : Post) :
    List Activity → List ResultRow → List ResultRow
  | [], results => results
  | a :: rest, results =>
      if (excluded_users exclSheet post.name).contains (a.username.getD "") then
        calc_loop rules exclSheet sheet post rest results
      else
        calc_loop rules exclSheet sheet post rest
          (results ++ [score_activity rules sheet post a])

/-- `MatsuniCalculator.calculate_for_post(post_data, activities)`
(lines 20–65). -/
def calculate_for_post (rules : Rules) (exclSheet : List ExclusionRow)
    (sheet : List ActivityRow) (post : Post) (activities : List Activity) :
    List ResultRow :=
  calc_loop rules exclSheet sheet post activities []

/-- `GoogleSheetsDB.save_activity` (gsheets.py lines 172–202) restricted to
the `Активность` worksheet: one appended row per result, stamped with the
commit time `now = datetime.now().strftime('%Y-%m-%d %H:%M:%S')`, which is a
parameter here. -/
def save_activity (sheet : List ActivityRow) (postId : String)
    (results : List ResultRow) (now : String) : List ActivityRow :=
  sheet ++ results.map fun r =>
    { postId := postId
      username := r.username
      likeMark := if r.has_like then "да" else "нет"
      commentMark := if r.has_comment then "да" else "нет"
      matsuni := r.matsuni
      checkTime := now }

/-- One scoring session: a post, its activity records, and the wall-clock
timestamp at which its results are committed. -/
structure Batch where
  post : Post
  activities : List Activity
  now : String
deriving DecidableEq

/-- Scoring a sequence of posts, committing each result batch to the ledger
before the next post is scored (the orchestration in `src/bot/main.py`:
`calculate_for_post` followed by `save_activity`, per post). -/
def process_posts (rules : Rules) (exclSheet : List ExclusionRow) :
    List ActivityRow → List Batch → List ActivityRow
  | sheet, [] => sheet
  | sheet, b :: rest =>
      process_posts rules exclSheet
        (save_activity sheet b.post.id
          (calculate_for_post rules exclSheet sheet b.post b.activities) b.now)
        rest

theorem calc_loop_acc (rules : Rules) (ex : List ExclusionRow)
    (sheet : List ActivityRow) (post : Post) (acts : List Activity)
    (results : List ResultRow) :
    calc_loop rules ex sheet post acts results =
      results ++ calc_loop rules ex sheet post acts [] := by
  induction acts generalizing results with
  | nil => simp [calc_loop]
  | cons a rest ih =>
    unfold calc_loop
    by_cases h : (excluded_users ex post.name).contains (a.username.getD "")
    · rw [if_pos h, if_pos h, ih results]
    · rw [if_neg h, if_neg h, ih (results ++ _), ih ([] ++ _)]
      simp

/-- The loop of `calculate_for_post` is the map of `score_activity` over the
records whose username is not excluded. -/
theorem calculate_for_post_eq (rules : Rules) (ex : List ExclusionRow)
    (sheet : List ActivityRow) (post : Post) (acts : List Activity) :
    calculate_for_post rules ex sheet post acts =
      (acts.filter fun a =>
        !((excluded_users ex post.name).contains (a.username.getD ""))).map
        (score_activity rules sheet post) := by
  unfold calculate_for_post
  induction acts with
  | nil => rfl
  | cons a rest ih =>
    unfold calc_loop
    by_cases h : (excluded_users ex post.name).contains (a.username.getD "")
    · rw [if_pos h, ih, List.filter_cons, if_neg (by simpa using List.elem_iff.mp h)]
    · rw [if_neg h, calc_loop_acc, ih, List.filter_cons,
        if_pos (by simpa using fun hm => h (List.elem_iff.mpr hm))]
      simp

/-- The clamp `if daily_limit < matsuni: matsuni = daily_limit` applied to
`daily_limit = min matsuni y` is exactly `min matsuni y`. -/
theorem if_lt_min_eq (x y : Int) :
    (if min x y < x then min x y else x) = min x y := by
  by_cases h : min x y < x
  · rw [if_pos h]
  · rw [if_neg h]
    exact (le_antisymm (min_le_left _ _) (not_lt.mp h)).symm

/-- C2 (failing input): an active exclusion with the wildcard post name
`"all"` for `alice` does not exclude `alice` from the post named `"post1"`:
`get_exclusions` drops the `"all"` row (its `Название поста` differs from the
queried name), so `calculate_for_post` scores alice into an ordinary output
row — contradicting the wildcard semantics that the bot's own prompt
promises (`src/bot/main.py` line 640: "`all` для всех постов"). -/
theorem wildcard_exclusion_ignored :
    get_exclusions [⟨"alice", "all", "reason", "2024-01-01", "да"⟩] "post1" = [] ∧
      calculate_for_post defaultRules
          [⟨"alice", "all", "reason", "2024-01-01", "да"⟩] []
          ⟨"id1", "post1", "2024-01-05"⟩ [⟨some "alice", false, true⟩] =
        [{ username := "alice", has_like := false, has_comment := true,
           matsuni := 2, post_name := "post1", post_date := "2024-01-05" }] := by
  constructor
  · rfl
  · rfl

/-- C3: a non-excluded activity record with username `u` yields an output row
whose matsuni is `min(raw, max(0, daily_cap - prior_total(u, post.date)))`,
where `raw` is `2` for a comment (regardless of a like), `1` for a like only,
`0` otherwise, under the default rules (daily cap `2`). -/
theorem matsuni_value (ex : List ExclusionRow) (sheet : List ActivityRow)
    (post : Post) (acts : List Activity) (a : Activity) (u : String)
    (ha : a ∈ acts) (hu : a.username = some u)
    (hex : u ∉ excluded_users ex post.name) :
    ({ username := u, has_like := a.has_like, has_comment := a.has_comment,
       matsuni := min (if a.has_comment then 2 else if a.has_like then 1 else 0)
         (max 0 (2 - daily_total sheet u post.date)),
       post_name := post.name, post_date := post.date } : ResultRow) ∈
      calculate_for_post defaultRules ex sheet post acts := by
  rw [calculate_for_post_eq]
  have hgd : a.username.getD "" = u := by rw [hu]; rfl
  refine List.mem_map.mpr ⟨a, List.mem_filter.mpr ⟨ha, ?_⟩, ?_⟩
  · rw [hgd]
    simpa using fun hm => hex hm
  · show score_activity defaultRules sheet post a = _
    unfold score_activity check_daily_limit
    rw [hgd]
    have hclamp := if_lt_min_eq
      (if a.has_comment then (2 : Int) else if a.has_like then 1 else 0)
      (max 0 (2 - daily_total sheet u post.date))
    simp only [ResultRow.mk.injEq, and_true, true_and]
    exact hclamp

/-- Witness for `matsuni_value`: member `carol` commented on a post, no
exclusions, empty ledger — her row carries `min 2 (max 0 (2 - 0)) = 2`. -/
theorem matsuni_value_witness :
    ({ username := "carol", has_like := false, has_comment := true,
       matsuni := min (if true then 2 else if false then 1 else 0)
         (max 0 (2 - daily_total [] "carol" "2024-01-15")),
       post_name := "p", post_date := "2024-01-15" } : ResultRow) ∈
      calculate_for_post defaultRules [] [] ⟨"id", "p", "2024-01-15"⟩
        [⟨some "carol", false, true⟩] :=
  matsuni_value [] [] ⟨"id", "p", "2024-01-15"⟩ [⟨some "carol", false, true⟩]
    ⟨some "carol", false, true⟩ "carol" (by decide) rfl (by decide)

/-- C4: members matching an exclusion for the post are entirely absent from
the output, and the output is exactly one scored row per non-excluded
activity record, in order — including rows whose matsuni is `0`. -/
theorem scoring_output_partition (rules : Rules) (ex : List ExclusionRow)
    (sheet : List ActivityRow) (post : Post) (acts : List Activity) :
    (∀ u ∈ excluded_users ex post.name,
      ∀ r ∈ calculate_for_post rules ex sheet post acts, r.username ≠ u) ∧
      calculate_for_post rules ex sheet post acts =
        (acts.filter fun a =>
          !((excluded_users ex post.name).contains (a.username.getD ""))).map
          (score_activity rules sheet post) := by
  refine ⟨?_, calculate_for_post_eq rules ex sheet post acts⟩
  intro u hu r hr
  rw [calculate_for_post_eq] at hr
  obtain ⟨a, ha, rfl⟩ := List.mem_map.mp hr
  obtain ⟨-, hp⟩ := List.mem_filter.mp ha
  intro hru
  have : a.username.getD "" ∈ excluded_users ex post.name := by
    have : (score_activity rules sheet post a).username = a.username.getD "" := rfl
    rw [this] at hru
    rw [hru]; exact hu
  simp only [Bool.not_eq_true'] at hp
  have hc : (excluded_users ex post.name).contains (a.username.getD "") = true :=
    List.elem_iff.mpr this
  rw [hp] at hc
  cases hc

/-- Witness for `scoring_output_partition`: an excluded `alice` is absent
while `bob` (with no qualifying activity, matsuni `0`) still appears. -/
theorem scoring_output_partition_witness :
    ∀ u ∈ excluded_users [⟨"alice", "p", "", "2024-01-01", "да"⟩] "p",
      ∀ r ∈ calculate_for_post defaultRules
          [⟨"alice", "p", "", "2024-01-01", "да"⟩] [] ⟨"id", "p", "2024-01-01"⟩
          [⟨some "alice", true, false⟩, ⟨some "bob", false, false⟩],
        r.username ≠ u :=
  (scoring_output_partition defaultRules [⟨"alice", "p", "", "2024-01-01", "да"⟩]
    [] ⟨"id", "p", "2024-01-01"⟩
    [⟨some "alice", true, false⟩, ⟨some "bob", false, false⟩]).1

/-- C5 (counterexample): a malformed activity record (missing username) is
not rejected and produces no error indicator: `calculate_for_post` reads the
username as `''` and scores the record into an ordinary result row. -/
theorem malformed_record_scored :
    calculate_for_post defaultRules [] [] ⟨"id1", "post1", "2024-01-05"⟩
        [⟨none, false, true⟩] =
      [{ username := "", has_like := false, has_comment := true, matsuni := 2,
         post_name := "post1", post_date := "2024-01-05" }] := rfl

/-- C5 (amended): a record with a missing username is scored like any other
record under the empty-string username (unless `''` happens to be excluded);
the batch is not aborted and no error indicator exists in the output type. -/
theorem malformed_record_amended (rules : Rules) (ex : List ExclusionRow)
    (sheet : List ActivityRow) (post : Post) (acts : List Activity)
    (a : Activity) (ha : a ∈ acts) (hu : a.username = none)
    (hex : "" ∉ excluded_users ex post.name) :
    score_activity rules sheet post a ∈ calculate_for_post rules ex sheet post acts ∧
      (score_activity rules sheet post a).username = "" := by
  have hgd : a.username.getD "" = "" := by rw [hu]; rfl
  constructor
  · rw [calculate_for_post_eq]
    refine List.mem_map.mpr ⟨a, List.mem_filter.mpr ⟨ha, ?_⟩, rfl⟩
    rw [hgd]
    simpa using fun hm => hex hm
  · show a.username.getD "" = ""
    exact hgd

/-- Witness for `malformed_record_amended` on a concrete malformed record. -/
theorem malformed_record_amended_witness :
    score_activity defaultRules [] ⟨"id1", "post1", "2024-01-05"⟩
        ⟨none, false, true⟩ ∈
      calculate_for_post defaultRules [] [] ⟨"id1", "post1", "2024-01-05"⟩
        [⟨none, false, true⟩] ∧
      (score_activity defaultRules [] ⟨"id1", "post1", "2024-01-05"⟩
        ⟨none, false, true⟩).username = "" :=
  malformed_record_amended defaultRules [] [] ⟨"id1", "post1", "2024-01-05"⟩
    [⟨none, false, true⟩] ⟨none, false, true⟩ (by decide) rfl (by decide)

/-- The matsuni awarded to username `u` by one result batch. -/
def batch_sum (results : List ResultRow) (u : String) : Int :=
  ((results.filter fun r => r.username == u).map (·.matsuni)).sum

theorem batch_sum_cons (r : ResultRow) (rs : List ResultRow) (u : String) :
    batch_sum (r :: rs) u =
      (if r.username == u then r.matsuni else 0) + batch_sum rs u := by
  unfold batch_sum
  rw [List.filter_cons]
  by_cases h : (r.username == u) = true
  · rw [if_pos h, if_pos h, List.map_cons, List.sum_cons]
  · rw [if_neg h, if_neg h, zero_add]

theorem batch_sum_eq_zero {l : List ResultRow} {u : String}
    (h : ∀ r ∈ l, r.username ≠ u) : batch_sum l u = 0 := by
  induction l with
  | nil => rfl
  | cons r rs ih =>
    have hr : ¬ (r.username == u) = true := by
      simpa using h r (List.mem_cons_self _ _)
    rw [batch_sum_cons, if_neg hr, ih fun r hr => h r (List.mem_cons_of_mem _ hr),
      zero_add]

theorem daily_total_append (s t : List ActivityRow) (u d : String) :
    daily_total (s ++ t) u d = daily_total s u d + daily_total t u d := by
  unfold daily_total
  rw [List.filter_append, List.map_append, List.sum_append]

theorem daily_total_commit_rows (pid now u d : String)
    (results : List ResultRow) :
    daily_total (results.map fun r =>
        ({ postId := pid, username := r.username,
           likeMark := if r.has_like then "да" else "нет",
           commentMark := if r.has_comment then "да" else "нет",
           matsuni := r.matsuni, checkTime := now } : ActivityRow)) u d =
      if dateOf now = d then batch_sum results u else 0 := by
  induction results with
  | nil =>
    show (0 : Int) = if dateOf now = d then batch_sum [] u else 0
    rw [show batch_sum [] u = 0 from rfl, ite_self]
  | cons r rs ih =>
    rw [List.map_cons]
    unfold daily_total
    rw [List.filter_cons]
    by_cases h1 : (r.username == u) = true <;> by_cases h2 : dateOf now = d
    · rw [if_pos (show (r.username == u && (dateOf now == d)) = true by
        rw [h1]; simpa using h2)]
      rw [List.map_cons, List.sum_cons]
      unfold daily_total at ih
      rw [ih, if_pos h2, if_pos h2, batch_sum_cons, if_pos h1]
    · rw [if_neg (show ¬ (r.username == u && (dateOf now == d)) = true by
        simp [h2])]
      unfold daily_total at ih
      rw [ih, if_neg h2, if_neg h2]
    · rw [if_neg (show ¬ (r.username == u && (dateOf now == d)) = true by
        simp [h1])]
      unfold daily_total at ih
      rw [ih, if_pos h2, if_pos h2, batch_sum_cons, if_neg h1, zero_add]
    · rw [if_neg (show ¬ (r.username == u && (dateOf now == d)) = true by
        simp [h1])]
      unfold daily_total at ih
      rw [ih, if_neg h2, if_neg h2]

/-- Committing a batch at time `now` raises the `(u, d)` daily total by the
batch's award to `u` exactly when `d` is the commit date; every other daily
total is untouched. -/
theorem daily_total_save (s : List ActivityRow) (pid : String)
    (results : List ResultRow) (now u d : String) :
    daily_total (save_activity s pid results now) u d =
      daily_total s u d + if dateOf now = d then batch_sum results u else 0 := by
  unfold save_activity
  rw [daily_total_append, daily_total_commit_rows]

/-- A single scored row never awards more than the remaining daily headroom
of its member (computed against the snapshot the batch was scored on). -/
theorem row_matsuni_le (rules : Rules) (sheet : List ActivityRow) (post : Post)
    (a : Activity) :
    (score_activity rules sheet post a).matsuni ≤
      max 0 (rules.max_per_day -
        daily_total sheet (a.username.getD "") post.date) := by
  have h : (score_activity rules sheet post a).matsuni =
      min (if a.has_comment then rules.like_comment
           else if a.has_like then rules.like_only else 0)
        (max 0 (rules.max_per_day -
          daily_total sheet (a.username.getD "") post.date)) :=
    if_lt_min_eq _ _
  rw [h]
  exact min_le_right _ _

/-- When the usernames of the batch's records are pairwise distinct, the
whole batch awards `u` at most the remaining daily headroom of `u`. -/
theorem batch_sum_le (rules : Rules) (ex : List ExclusionRow)
    (sheet : List ActivityRow) (post : Post) (acts : List Activity) (u : String)
    (hnd : (acts.map fun a => a.username.getD "").Nodup) :
    batch_sum (calculate_for_post rules ex sheet post acts) u ≤
      max 0 (rules.max_per_day - daily_total sheet u post.date) := by
  rw [calculate_for_post_eq]
  revert hnd
  induction acts with
  | nil =>
    intro _
    show (0 : Int) ≤ max 0 (rules.max_per_day - daily_total sheet u post.date)
    exact le_max_left 0 _
  | cons a rest ih =>
    intro hnd
    have hnd' : (a.username.getD "" ∉ rest.map fun a => a.username.getD "") ∧
        (rest.map fun a => a.username.getD "").Nodup := by
      rw [List.map_cons, List.nodup_cons] at hnd
      exact hnd
    obtain ⟨hna, hndr⟩ := hnd'
    rw [List.filter_cons]
    by_cases hP : (!(excluded_users ex post.name).contains (a.username.getD "")) = true
    · rw [if_pos hP, List.map_cons, batch_sum_cons]
      by_cases hau : ((score_activity rules sheet post a).username == u) = true
      · rw [if_pos hau]
        have hu : a.username.getD "" = u := by
          have : (score_activity rules sheet post a).username = a.username.getD "" := rfl
          rw [this] at hau
          simpa using hau
        have hzero : batch_sum ((rest.filter fun a =>
            !((excluded_users ex post.name).contains (a.username.getD ""))).map
            (score_activity rules sheet post)) u = 0 := by
          apply batch_sum_eq_zero
          intro r hr
          obtain ⟨b, hb, rfl⟩ := List.mem_map.mp hr
          obtain ⟨hbmem, -⟩ := List.mem_filter.mp hb
          show b.username.getD "" ≠ u
          intro hc
          apply hna
          have hmem : b.username.getD "" ∈
              rest.map fun a => a.username.getD "" :=
            List.mem_map_of_mem _ hbmem
          rw [hc] at hmem
          rw [hu]
          exact hmem
        have hb := row_matsuni_le rules sheet post a
        rw [hu] at hb
        rw [hzero]
        omega
      · rw [if_neg hau, zero_add]
        exact ih hndr
    · rw [if_neg hP]
      exact ih hndr

/-- C1 (amended): starting from a ledger whose `(username, date)` daily sums
respect the cap, scoring any sequence of posts of one calendar date — in any
order, i.e. for every such sequence — and committing each batch before the
next is scored preserves the cap on every `(username, date)` daily sum,
provided each batch is committed on its post's calendar date
(`dateOf now = post.date`) and no batch lists the same username twice. -/
theorem daily_cap_invariant (rules : Rules) (ex : List ExclusionRow)
    (batches : List Batch) (s0 : List ActivityRow) (d : String)
    (hinit : ∀ u dd, daily_total s0 u dd ≤ rules.max_per_day)
    (hdate : ∀ b ∈ batches, b.post.date = d)
    (hcommit : ∀ b ∈ batches, dateOf b.now = b.post.date)
    (hnd : ∀ b ∈ batches,
      (b.activities.map fun a => a.username.getD "").Nodup) :
    ∀ u dd, daily_total (process_posts rules ex s0 batches) u dd ≤
      rules.max_per_day := by
  revert hinit hdate hcommit hnd
  induction batches generalizing s0 with
  | nil =>
    intro hinit _ _ _
    exact hinit
  | cons b rest ih =>
    intro hinit hdate hcommit hnd
    refine ih (save_activity s0 b.post.id
      (calculate_for_post rules ex s0 b.post b.activities) b.now) ?_ ?_ ?_ ?_
    · intro u dd
      rw [daily_total_save]
      by_cases hd : dateOf b.now = dd
      · rw [if_pos hd]
        have hbs := batch_sum_le rules ex s0 b.post b.activities u
          (hnd b (List.mem_cons_self _ _))
        have hdd : dd = b.post.date := by
          rw [← hd]
          exact hcommit b (List.mem_cons_self _ _)
        rw [hdd]
        have hT := hinit u b.post.date
        have hx : max 0 (rules.max_per_day - daily_total s0 u b.post.date) =
            rules.max_per_day - daily_total s0 u b.post.date :=
          max_eq_right (by omega)
        rw [hx] at hbs
        omega
      · rw [if_neg hd, add_zero]
        exact hinit u dd
    · exact fun b' hb' => hdate b' (List.mem_cons_of_mem _ hb')
    · exact fun b' hb' => hcommit b' (List.mem_cons_of_mem _ hb')
    · exact fun b' hb' => hnd b' (List.mem_cons_of_mem _ hb')

/-- Witness for `daily_cap_invariant`: one post dated `2024-01-01`, committed
that day, one comment by `u1` — the `(u1, 2024-01-01)` total stays within the
default cap. -/
theorem daily_cap_invariant_witness :
    daily_total (process_posts defaultRules [] []
        [⟨⟨"id1", "post1", "2024-01-01"⟩, [⟨some "u1", false, true⟩],
          "2024-01-01 10:00:00"⟩])
      "u1" "2024-01-01" ≤ defaultRules.max_per_day :=
  daily_cap_invariant defaultRules []
    [⟨⟨"id1", "post1", "2024-01-01"⟩, [⟨some "u1", false, true⟩],
      "2024-01-01 10:00:00"⟩] [] "2024-01-01"
    (fun u dd => by rw [show daily_total [] u dd = 0 from rfl]; decide)
    (by decide) (by decide) (by decide) "u1" "2024-01-01"

/-- C1 (counterexample to the claim as stated): three concrete failures.
(i) A ledger state may already violate the cap and scoring no posts keeps the
violating sum `3 > 2`.  (ii) Two posts dated `2024-01-01` but committed on
`2024-01-02` each pass the daily check against the (empty) `2024-01-01`
totals, and the `(u1, 2024-01-02)` entries sum to `4 > 2` — the check reads
`_check_daily_limit(username, post_date)` while `save_activity` stamps rows
with `datetime.now()`.  (iii) One batch listing `u1` twice scores both
records against the same pre-commit snapshot, committing `4 > 2` for
`(u1, 2024-01-01)`. -/
theorem daily_cap_counterexample :
    daily_total (process_posts defaultRules []
        [⟨"p0", "u1", "нет", "да", 3, "2024-01-01 09:00:00"⟩] [])
      "u1" "2024-01-01" = 3 ∧
      daily_total (process_posts defaultRules [] []
          [⟨⟨"id1", "post1", "2024-01-01"⟩, [⟨some "u1", false, true⟩],
            "2024-01-02 10:00:00"⟩,
           ⟨⟨"id2", "post2", "2024-01-01"⟩, [⟨some "u1", false, true⟩],
            "2024-01-02 11:00:00"⟩])
        "u1" "2024-01-02" = 4 ∧
      daily_total (process_posts defaultRules [] []
          [⟨⟨"id1", "post1", "2024-01-01"⟩,
            [⟨some "u1", false, true⟩, ⟨some "u1", false, true⟩],
            "2024-01-01 10:00:00"⟩])
        "u1" "2024-01-01" = 4 ∧
      ¬ ((3 : Int) ≤ defaultRules.max_per_day) ∧
      ¬ ((4 : Int) ≤ defaultRules.max_per_day) := by
  exact ⟨rfl, rfl, rfl, by decide, by decide⟩

/-! ## Period aggregator: `GoogleSheetsDB.calculate_totals`
(`src/bot/database/gsheets.py`, lines 204–299). -/

/-- A row of the `Участники` worksheet:
`['Username', 'Дата добавления', 'Статус', 'Телеграм ID']`. -/
structure MemberRow where
  username : String
  joinDate : String
  status : String
  telegramId : String
deriving DecidableEq

/-- Python's string comparison on the date components of
`start_date <= activity_date <= end_date`: lexicographic by code point. -/
def charListLe : List Char → List Char → Bool
  | [], _ => true
  | _ :: _, [] => false
  | x :: xs, y :: ys => if x < y then true else if y < x then false else charListLe xs ys

def strLe (a b : String) : Bool := charListLe a.data b.data

/-- The range filter of `calculate_totals` (lines 213–217):
`start_date <= activity_date <= end_date`, inclusive string comparison of the
check-timestamp dates. -/
def totals_filtered (sheet : List ActivityRow) (start stop : String) :
    List ActivityRow :=
  sheet.filter fun r =>
    strLe start (dateOf r.checkTime) && strLe (dateOf r.checkTime) stop

/-- The member dict `{row['Username']: row for row in ...}` (line 221):
a later sheet row with the same username overwrites an earlier one. -/
def members_dict_find (members : List MemberRow) (u : String) : Option MemberRow :=
  members.reverse.find? fun r => r.username == u

/-- One entry of the `results` grouping dict (lines 229–240): the per-member
accumulator with its set of active dates and running total.  (The
`'activities'` list the source also accumulates is dead data — no later line
reads it — and is omitted.) -/
structure Group where
  username : String
  days_active : List String
  total_matsuni : Int
deriving DecidableEq

/-- `results[username]['days_active'].add(activity_date)` — set insertion. -/
def add_date (dates : List String) (d : String) : List String :=
  if dates.contains d then dates else dates ++ [d]

/-- Insert one activity into the grouping dict: create the member's entry at
the end on first encounter, else update it in place. -/
def add_entry (groups : List Group) (u d : String) (m : Int) : List Group :=
  match groups with
  | [] => [⟨u, [d], m⟩]
  | g :: gs =>
      if g.username = u then
        ⟨g.username, add_date g.days_active d, g.total_matsuni + m⟩ :: gs
      else g :: add_entry gs u d m

/-- The grouping loop of `calculate_totals` (lines 224–240): skip activities
whose username is not a member (`if username not in members: continue`),
accumulate the rest keyed by username in first-encounter order (a Python
dict preserves insertion order). -/
def group_activities (members : List MemberRow) :
    List ActivityRow → List Group → List Group
  | [], groups => groups
  | r :: rest, groups =>
      if (members.map (·.username)).contains r.username then
        group_activities members rest
          (add_entry groups r.username (dateOf r.checkTime) r.matsuni)
      else
        group_activities members rest groups

/-- Round-half-to-even of Python's `round` on the exact rational value. -/
def pyRoundInt (q : ℚ) : ℤ :=
  if q - ⌊q⌋ < 1/2 then ⌊q⌋
  else if (1:ℚ)/2 < q - ⌊q⌋ then ⌊q⌋ + 1
  else if ⌊q⌋ % 2 = 0 then ⌊q⌋ else ⌊q⌋ + 1

/-- `round(x, 2)` (line 252). -/
def round2 (q : ℚ) : ℚ := (pyRoundInt (q * 100) : ℚ) / 100

/-- One element of `final_results` (lines 248–255).  `rank` is added by a
later loop (line 262); before that the dict has no `'rank'` key, modelled as
the field holding `0`. -/
structure TotalRow where
  username : String
  days_active : Nat
  total_matsuni : Int
  avg_matsuni : ℚ
  join_date : String
  status : String
  rank : Nat
deriving DecidableEq

/-- Lines 244–255: turn one grouping-dict entry into a `final_results` row:
`days_active = len(set)`, `avg = total / days_active if days_active > 0 else
0` rounded to two decimals, member metadata looked up from the member dict. -/
def to_total_row (members : List MemberRow) (g : Group) : TotalRow :=
  let days_active := g.days_active.length
  let avg : ℚ := if days_active > 0 then (g.total_matsuni : ℚ) / days_active else 0
  { username := g.username
    days_active := days_active
    total_matsuni := g.total_matsuni
    avg_matsuni := round2 avg
    join_date := ((members_dict_find members g.username).map (·.joinDate)).getD ""
    status := ((members_dict_find members g.username).map (·.status)).getD "активен"
    rank := 0 }

/-- The sort key of line 258:
`final_results.sort(key=lambda x: x['total_matsuni'], reverse=True)` —
descending by total, and Python's sort is stable. -/
def byTotalDesc (a b : TotalRow) : Prop := b.total_matsuni ≤ a.total_matsuni

instance : DecidableRel byTotalDesc :=
  fun a b => inferInstanceAs (Decidable (b.total_matsuni ≤ a.total_matsuni))

instance : IsTotal TotalRow byTotalDesc :=
  ⟨fun a b => le_total b.total_matsuni a.total_matsuni⟩

instance : IsTrans TotalRow byTotalDesc :=
  ⟨fun _ _ _ h1 h2 => le_trans h2 h1⟩

/-- The rank loop of lines 261–262:
`for i, result in enumerate(final_results, 1): result['rank'] = i`. -/
def add_ranks (k : Nat) : List TotalRow → List TotalRow
  | [] => []
  | r :: rs => { r with rank := k } :: add_ranks (k + 1) rs

/-- The `final_results` list of `calculate_totals`, grouped in
first-encounter order, stably sorted by descending total, and ranked
1..N (lines 224–262). -/
def totals_results (activity : List ActivityRow) (members : List MemberRow)
    (start stop : String) : List TotalRow :=
  add_ranks 1 (List.insertionSort byTotalDesc
    ((group_activities members (totals_filtered activity start stop) []).map
      (to_total_row members)))

/-- `datetime.strptime(s, '%Y-%m-%d')` decomposed into numeric components
(the source only runs on validated `YYYY-MM-DD` strings). -/
def parse_date (s : String) : Nat × Nat × Nat :=
  match s.splitOn "-" with
  | [y, m, d] => (y.toNat?.getD 0, m.toNat?.getD 0, d.toNat?.getD 0)
  | _ => (0, 0, 0)

def is_leap (y : Nat) : Bool := y % 4 == 0 && (y % 100 != 0 || y % 400 == 0)

/-- Proleptic-Gregorian ordinal of a `YYYY-MM-DD` string, as in
`datetime.date.toordinal`. -/
def to_ordinal (s : String) : Int :=
  match parse_date s with
  | (y, m, d) =>
    let monthLens : List Nat :=
      [31, if is_leap y then 29 else 28, 31, 30, 31, 30, 31, 31, 30, 31, 30, 31]
    ((365 * (y - 1) + (y - 1) / 4 - (y - 1) / 100 + (y - 1) / 400
      + (monthLens.take (m - 1)).sum + d : Nat) : Int)

/-- `(strptime(end) - strptime(start)).days + 1` (lines 294–295). -/
def totalDaysOf (start stop : String) : Int := to_ordinal stop - to_ordinal start + 1

/-- A row of the `Итоги` worksheet:
`['Период', 'Username', 'Дней активности', 'Всего матсуни', 'Среднее',
'Рейтинг']` (lines 277–286). -/
structure TotalsSheetRow where
  period : String
  username : String
  days_active : Nat
  total_matsuni : Int
  avg_matsuni : ℚ
  rank : Nat
deriving DecidableEq

/-- The worksheet state `calculate_totals` reads and writes: the
`Активность` and `Участники` sheets (read) and the `Итоги` sheet
(rewritten). -/
structure SheetsState where
  activity : List ActivityRow
  members : List MemberRow
  totals : List TotalsSheetRow
deriving DecidableEq

/-- `period_id = f"{start_date}_{end_date}"` (line 266). -/
def period_id (start stop : String) : String := start ++ "_" ++ stop

/-- The rows appended to `Итоги` for this period (lines 277–286). -/
def totals_rows_for (final : List TotalRow) (pid : String) : List TotalsSheetRow :=
  final.map fun r =>
    ⟨pid, r.username, r.days_active, r.total_matsuni, r.avg_matsuni, r.rank⟩

/-- The dictionary returned by `calculate_totals` (lines 292–299). -/
structure TotalsResult where
  period : String
  total_days : Int
  total_members : Nat
  total_matsuni : Int
  results : List TotalRow
deriving DecidableEq

/-- `GoogleSheetsDB.calculate_totals(start_date, end_date)` (lines 204–299):
compute `final_results`, overwrite the period's rows in the `Итоги` sheet
(keep rows of other periods, line 273, then append the new rows), and return
the period summary. -/
def calculate_totals (s : SheetsState) (start stop : String) :
    SheetsState × TotalsResult :=
  ({ activity := s.activity
     members := s.members
     totals := (s.totals.filter fun row => row.period != period_id start stop) ++
       totals_rows_for (totals_results s.activity s.members start stop)
         (period_id start stop) },
   { period := start ++ " - " ++ stop
     total_days := totalDaysOf start stop
     total_members := (totals_results s.activity s.members start stop).length
     total_matsuni :=
       ((totals_results s.activity s.members start stop).map (·.total_matsuni)).sum
     results := totals_results s.activity s.members start stop })

/-- Rewriting the `Итоги` sheet for a period is absorbing: filtering the
rewritten sheet by `row[0] != period_id` returns exactly the kept rows. -/
theorem totals_overwrite (T : List TotalsSheetRow) (F : List TotalRow)
    (pid : String) :
    ((T.filter fun row => row.period != pid) ++ totals_rows_for F pid).filter
        (fun row => row.period != pid) =
      T.filter fun row => row.period != pid := by
  rw [List.filter_append]
  have h1 : ((T.filter fun row => row.period != pid).filter
      fun row => row.period != pid) = T.filter fun row => row.period != pid := by
    rw [List.filter_filter]
    simp
  have h2 : ((totals_rows_for F pid).filter fun row => row.period != pid) = [] := by
    apply List.filter_eq_nil_iff.mpr
    intro a ha
    unfold totals_rows_for at ha
    obtain ⟨r, hr, rfl⟩ := List.mem_map.mp ha
    simp
  rw [h1, h2, List.append_nil]

/-- C8: period aggregation is idempotent and deterministic — running
`calculate_totals` a second time for the same date range, on the worksheet
state left by the first run, returns the identical result record (same
`perMember` list, ordering, totals, days, averages, ranks and summary
values) and leaves the worksheet state unchanged. -/
theorem calculate_totals_idempotent (s : SheetsState) (start stop : String) :
    calculate_totals (calculate_totals s start stop).1 start stop =
      calculate_totals s start stop := by
  refine Prod.ext ?_ ?_
  · show ({ activity := s.activity
            members := s.members
            totals := (((s.totals.filter fun row =>
                  row.period != period_id start stop) ++
                totals_rows_for (totals_results s.activity s.members start stop)
                  (period_id start stop)).filter fun row =>
                row.period != period_id start stop) ++
              totals_rows_for (totals_results s.activity s.members start stop)
                (period_id start stop) } : SheetsState) =
          { activity := s.activity
            members := s.members
            totals := (s.totals.filter fun row =>
                row.period != period_id start stop) ++
              totals_rows_for (totals_results s.activity s.members start stop)
                (period_id start stop) }
    rw [totals_overwrite]
  · rfl

theorem add_ranks_length (k : Nat) (l : List TotalRow) :
    (add_ranks k l).length = l.length := by
  induction l generalizing k with
  | nil => rfl
  | cons r rs ih =>
    show (add_ranks (k + 1) rs).length + 1 = rs.length + 1
    rw [ih]

/-- The rank loop writes the consecutive values `k, k+1, ...` down the list. -/
theorem add_ranks_map_rank (k : Nat) (l : List TotalRow) :
    (add_ranks k l).map (·.rank) = List.range' k l.length := by
  induction l generalizing k with
  | nil => rfl
  | cons r rs ih =>
    have hstep : add_ranks k (r :: rs) = { r with rank := k } :: add_ranks (k + 1) rs :=
      rfl
    rw [hstep, List.map_cons, ih, List.length_cons]
    rfl

theorem mem_add_ranks {b : TotalRow} :
    ∀ {k : Nat} {l : List TotalRow}, b ∈ add_ranks k l →
      ∃ b' ∈ l, b.total_matsuni = b'.total_matsuni := by
  intro k l
  induction l generalizing k with
  | nil => intro h; cases h
  | cons r rs ih =>
    intro h
    rcases List.mem_cons.mp h with h | h
    · exact ⟨r, List.mem_cons_self _ _, by rw [h]⟩
    · obtain ⟨b', hb', he⟩ := ih h
      exact ⟨b', List.mem_cons_of_mem _ hb', he⟩

theorem add_ranks_pairwise {l : List TotalRow} (k : Nat)
    (h : l.Pairwise byTotalDesc) : (add_ranks k l).Pairwise byTotalDesc := by
  induction l generalizing k with
  | nil => exact List.Pairwise.nil
  | cons r rs ih =>
    obtain ⟨h1, h2⟩ := List.pairwise_cons.mp h
    refine List.pairwise_cons.mpr ⟨?_, ih (k + 1) h2⟩
    intro b hb
    obtain ⟨b', hb', he⟩ := mem_add_ranks hb
    show b.total_matsuni ≤ ({ r with rank := k }).total_matsuni
    rw [he]
    exact h1 b' hb'

theorem add_ranks_filter_usernames (k : Nat) (l : List TotalRow) (t : Int) :
    ((add_ranks k l).filter fun r => r.total_matsuni == t).map (·.username) =
      (l.filter fun r => r.total_matsuni == t).map (·.username) := by
  induction l generalizing k with
  | nil => rfl
  | cons r rs ih =>
    show ((({ r with rank := k }) :: add_ranks (k + 1) rs).filter
        fun r => r.total_matsuni == t).map (·.username) = _
    rw [List.filter_cons, List.filter_cons]
    by_cases h : (r.total_matsuni == t) = true
    · rw [if_pos h, if_pos h, List.map_cons, List.map_cons, ih]
    · rw [if_neg h, if_neg h, ih]

theorem add_entry_usernames (groups : List Group) (u d : String) (m : Int) :
    (add_entry groups u d m).map (·.username) =
      if u ∈ groups.map (·.username) then groups.map (·.username)
      else groups.map (·.username) ++ [u] := by
  induction groups with
  | nil => simp [add_entry]
  | cons g gs ih =>
    unfold add_entry
    by_cases h : g.username = u
    · rw [if_pos h]
      simp [h]
    · rw [if_neg h]
      simp only [List.map_cons]
      rw [ih]
      by_cases hm : u ∈ gs.map (·.username)
      · rw [if_pos hm, if_pos (List.mem_cons_of_mem _ hm)]
      · rw [if_neg hm, if_neg ?_]
        · rfl
        · intro hc
          rcases List.mem_cons.mp hc with hc | hc
          · exact h hc.symm
          · exact hm hc

theorem add_entry_nodup {groups : List Group} {u d : String} {m : Int}
    (h : (groups.map (·.username)).Nodup) :
    ((add_entry groups u d m).map (·.username)).Nodup := by
  rw [add_entry_usernames]
  split
  · exact h
  · rename_i hm
    rw [List.nodup_append]
    refine ⟨h, List.nodup_singleton u, ?_⟩
    intro a ha hb
    rw [List.mem_singleton] at hb
    exact hm (hb ▸ ha)

theorem group_activities_usernames_nodup (members : List MemberRow)
    (rows : List ActivityRow) :
    ∀ g0 : List Group, ((g0.map (·.username)).Nodup) →
      ((group_activities members rows g0).map (·.username)).Nodup := by
  induction rows with
  | nil => intro g0 h; exact h
  | cons r rest ih =>
    intro g0 h
    unfold group_activities
    by_cases hc : ((members.map (·.username)).contains r.username) = true
    · rw [if_pos hc]
      exact ih _ (add_entry_nodup h)
    · rw [if_neg hc]
      exact ih _ h

theorem group_activities_usernames_mem (members : List MemberRow)
    (rows : List ActivityRow) :
    ∀ (g0 : List Group) (u : String),
      (u ∈ (group_activities members rows g0).map (·.username)) ↔
        u ∈ g0.map (·.username) ∨
          u ∈ (rows.filter fun r =>
            (members.map (·.username)).contains r.username).map (·.username) := by
  induction rows with
  | nil =>
    intro g0 u
    simp [group_activities]
  | cons r rest ih =>
    intro g0 u
    unfold group_activities
    rw [List.filter_cons]
    by_cases hc : ((members.map (·.username)).contains r.username) = true
    · rw [if_pos hc, if_pos hc, ih]
      rw [add_entry_usernames]
      by_cases hm : r.username ∈ g0.map (·.username)
      · rw [if_pos hm]
        simp only [List.map_cons, List.mem_cons]
        constructor
        · rintro (h | h)
          · exact Or.inl h
          · exact Or.inr (Or.inr h)
        · rintro (h | h | h)
          · exact Or.inl h
          · exact Or.inl (h ▸ hm)
          · exact Or.inr h
      · rw [if_neg hm]
        simp only [List.mem_append, List.mem_singleton, List.map_cons,
          List.mem_cons]
        tauto
    · rw [if_neg hc, if_neg hc, ih]

/-- C6: in the output of `calculate_totals`, the ranks are exactly the dense
1-based sequence `1..N` (no duplicate, no skipped rank); `N` is the number of
distinct roster members with at least one entry in range; the rows are
ordered by descending `total_matsuni`; and rows with equal totals keep their
original grouping-encounter order (the sort is stable). -/
theorem ranking_dense_spec (s : SheetsState) (start stop : String) :
    ((calculate_totals s start stop).2.results.map (·.rank)) =
      List.range' 1 ((calculate_totals s start stop).2.results.length) ∧
      (calculate_totals s start stop).2.results.length =
        ((((totals_filtered s.activity start stop).filter fun r =>
            (s.members.map (·.username)).contains r.username).map
            (·.username)).dedup).length ∧
      (calculate_totals s start stop).2.results.Pairwise byTotalDesc ∧
      ∀ t : Int,
        (((calculate_totals s start stop).2.results.filter fun r =>
            r.total_matsuni == t).map (·.username)) =
          ((((group_activities s.members (totals_filtered s.activity start stop)
              []).map (to_total_row s.members)).filter fun r =>
              r.total_matsuni == t).map (·.username)) := by
  have hres : (calculate_totals s start stop).2.results =
      totals_results s.activity s.members start stop := rfl
  have hout : totals_results s.activity s.members start stop =
      add_ranks 1 (List.insertionSort byTotalDesc
        ((group_activities s.members (totals_filtered s.activity start stop)
          []).map (to_total_row s.members))) := rfl
  rw [hres, hout]
  set F := totals_filtered s.activity start stop with hF
  set groups := group_activities s.members F [] with hgroups
  set unsorted := groups.map (to_total_row s.members) with hunsorted
  set sorted := List.insertionSort byTotalDesc unsorted with hsorted
  refine ⟨?_, ?_, ?_, ?_⟩
  · rw [add_ranks_map_rank, add_ranks_length]
  · rw [add_ranks_length]
    have h1 : sorted.length = unsorted.length :=
      (List.perm_insertionSort byTotalDesc unsorted).length_eq
    have hnodup : (groups.map (·.username)).Nodup :=
      group_activities_usernames_nodup s.members F [] (by simp)
    have hmem : ∀ u : String, u ∈ groups.map (·.username) ↔
        u ∈ ((F.filter fun r =>
          (s.members.map (·.username)).contains r.username).map (·.username)).dedup := by
      intro u
      rw [List.mem_dedup, hgroups, group_activities_usernames_mem]
      simp
    have hperm : List.Perm (groups.map (·.username))
        ((F.filter fun r =>
          (s.members.map (·.username)).contains r.username).map (·.username)).dedup :=
      (List.perm_ext_iff_of_nodup hnodup (List.nodup_dedup _)).mpr hmem
    calc sorted.length = unsorted.length := h1
      _ = (groups.map (·.username)).length := by rw [hunsorted]; simp
      _ = _ := hperm.length_eq
  · exact add_ranks_pairwise 1 (List.sorted_insertionSort byTotalDesc unsorted)
  · intro t
    rw [add_ranks_filter_usernames]
    suffices h : (sorted.filter fun r => r.total_matsuni == t) =
        unsorted.filter fun r => r.total_matsuni == t by rw [h]
    have hpair : (unsorted.filter fun r => r.total_matsuni == t).Pairwise
        byTotalDesc := by
      apply List.pairwise_of_forall_mem_list
      intro a ha b hb
      have ha' := (List.mem_filter.mp ha).2
      have hb' := (List.mem_filter.mp hb).2
      show b.total_matsuni ≤ a.total_matsuni
      rw [eq_of_beq ha', eq_of_beq hb']
    have hsub1 : List.Sublist (unsorted.filter fun r => r.total_matsuni == t)
        sorted :=
      List.sublist_insertionSort hpair (List.filter_sublist unsorted)
    have hsub2 : List.Sublist (unsorted.filter fun r => r.total_matsuni == t)
        (sorted.filter fun r => r.total_matsuni == t) := by
      have h := hsub1.filter fun r => r.total_matsuni == t
      rw [List.filter_filter] at h
      simpa using h
    have hperm : List.Perm (sorted.filter fun r => r.total_matsuni == t)
        (unsorted.filter fun r => r.total_matsuni == t) :=
      (List.perm_insertionSort byTotalDesc unsorted).filter _
    exact (hsub2.eq_of_length hperm.length_eq.symm).symm

end Matsuni
